import Mathlib

/-!
Shallow embedding of `src/telemetry/src/main/cpp/ndk_crash_handler.c`
(an async-signal-safe NDK crash handler) together with proofs of the
specification's claims about it.

Modelling conventions:
* C strings are `List Char` holding the bytes up to (and excluding) the
  terminating NUL; a buffer that the code fills (e.g. `num_buf` after
  `safe_itoa`) is modelled as the full list of bytes written, including
  the terminator, and `bufStr` reads it back as a C string.
* Machine integers: `unsigned long` values are `Nat` (64-bit bounds are
  stated as explicit hypotheses where a claim needs them); descriptors
  and signal numbers are `Int` (C `int`).
* The process-wide registration state is a `CrashState`; signal
  dispositions are a function from signal number to `SigAction`.
* System calls performed by the handler are recorded as an `Event`
  trace: raw `write`s, `close`s, `sigaction` restorations and the final
  `raise`.  `open` results are inputs to the model.
* The stack-unwinding mechanism is modelled as the list of
  program-counter values it would present to `unwind_callback`, in walk
  order (innermost frame first).
-/

/-- `#define MAX_BACKTRACE_DEPTH 64` from `ndk_crash_handler.h`. -/
def MAX_BACKTRACE_DEPTH : Nat := 64

/-- `#define INT_BUFFER_SIZE 24` from `ndk_crash_handler.h`. -/
def INT_BUFFER_SIZE : Nat := 24

/-- Capacity of the global `g_crash_file_path[256]` buffer. -/
def PATH_BUFFER_SIZE : Nat := 256

/-- The NUL byte terminating C strings. -/
def nullChar : Char := Char.ofNat 0

/-- Reading a written buffer back as a C string: the bytes before the
first NUL. -/
def bufStr (l : List Char) : List Char :=
  l.takeWhile (fun c => c ≠ nullChar)

/-- Linux/Android signal numbers (bionic libc). -/
def SIGSEGV : Int := 11
def SIGABRT : Int := 6
def SIGBUS : Int := 7
def SIGFPE : Int := 8
def SIGILL : Int := 4
def SIGTRAP : Int := 5

/-- `static const int g_signals[] = {SIGSEGV, SIGABRT, SIGBUS, SIGFPE,
SIGILL, SIGTRAP};` -/
def g_signals : List Int := [SIGSEGV, SIGABRT, SIGBUS, SIGFPE, SIGILL, SIGTRAP]

/-- `static const int g_num_signals = 6;` -/
def g_num_signals : Nat := 6

/-- `get_signal_name`: the switch over the monitored signals, with
`"UNKNOWN"` as the default case. -/
def get_signal_name (sig : Int) : List Char :=
  if sig = SIGSEGV then "SIGSEGV".toList
  else if sig = SIGABRT then "SIGABRT".toList
  else if sig = SIGBUS then "SIGBUS".toList
  else if sig = SIGFPE then "SIGFPE".toList
  else if sig = SIGILL then "SIGILL".toList
  else if sig = SIGTRAP then "SIGTRAP".toList
  else "UNKNOWN".toList

/-- `static const char digits[] = "0123456789abcdef";` in `safe_itoa`. -/
def itoaDigits : List Char :=
  "0123456789abcdef".toList

/-- The `while (value > 0 && i < INT_BUFFER_SIZE - 1)` loop of
`safe_itoa`: collects the digit characters least-significant first into
`temp`.  `room` is the remaining scratch capacity `INT_BUFFER_SIZE - 1 - i`
(the loop runs while `value > 0` and `room > 0`, with `room` decreasing
as the write index `i` increases). -/
def itoaLoop (value base : Nat) : Nat → List Char
  | 0 => []
  | room + 1 =>
    if 0 < value then
      itoaDigits.getD (value % base) nullChar :: itoaLoop (value / base) base room
    else []

/-- `safe_itoa(value, buffer, base)`: returns the bytes written into
`buffer` (digits most-significant first followed by the NUL terminator)
and the returned count `j`. -/
def safe_itoa (value base : Nat) : List Char × Nat :=
  if value = 0 then (['0', nullChar], 1)
  else
    let temp := itoaLoop value base (INT_BUFFER_SIZE - 1)
    (temp.reverse ++ [nullChar], temp.reverse.length)

/-- The copy loop of `safe_strcpy`: `while (src[i] != '\0' && i <
max_len - 1)`.  `src` holds the source bytes before its terminator
(reaching the end of the list is reaching the NUL). -/
def strcpyLoop (src : List Char) (i max_len : Nat) : List Char :=
  match src with
  | [] => []
  | ch :: rest =>
    if ch ≠ nullChar ∧ i < max_len - 1 then
      ch :: strcpyLoop rest (i + 1) max_len
    else []

/-- `safe_strcpy(dest, src, max_len)`: returns the bytes written into
`dest` (the copied characters followed by the NUL terminator written at
index `i`) and the returned count `i`. -/
def safe_strcpy (src : List Char) (max_len : Nat) : List Char × Nat :=
  let copied := strcpyLoop src 0 max_len
  (copied ++ [nullChar], copied.length)

/-- The manual length scan of `safe_write`:
`size_t len = 0; while (str[len] != '\0') len++;`. -/
def scanLen (str : List Char) : Nat :=
  match str with
  | [] => 0
  | _ :: rest => scanLen rest + 1

/-- `safe_write(fd, str)`: returns the list of `write` system calls
performed, each as (descriptor, bytes).  `none` models a NULL `str`
pointer. -/
def safe_write (fd : Int) (str : Option (List Char)) : List (Int × List Char) :=
  match str with
  | none => []
  | some s =>
    if fd < 0 then []
    else [(fd, s.take (scanLen s))]

/-- `unwind_callback` return values (`_URC_END_OF_STACK` /
`_URC_NO_REASON`). -/
inductive UnwindReason where
  | endOfStack
  | noReason
deriving DecidableEq

/-- `unwind_callback`: the per-frame callback.  The mutable
`backtrace_state_t` is passed as its (buffer contents, count)
components; `pc` is `_Unwind_GetIP(context)`.  Returns the updated
state and the reason code. -/
def unwind_callback (maxDepth : Nat) (pc : Nat) (buf : List Nat) (count : Nat) :
    (List Nat × Nat) × UnwindReason :=
  if count ≥ maxDepth then ((buf, count), UnwindReason.endOfStack)
  else if pc ≠ 0 then ((buf ++ [pc], count + 1), UnwindReason.noReason)
  else ((buf, count), UnwindReason.noReason)

/-- `_Unwind_Backtrace`: feeds the walk's program-counter values to the
callback until the walk ends or the callback stops it. -/
def unwindBacktrace : List Nat → Nat → List Nat → Nat → List Nat × Nat
  | [], _, buf, count => (buf, count)
  | pc :: rest, maxDepth, buf, count =>
    let res := unwind_callback maxDepth pc buf count
    if res.2 = UnwindReason.endOfStack then res.1
    else unwindBacktrace rest maxDepth res.1.1 res.1.2

/-- `capture_backtrace(buffer, max_depth)`: returns the recorded
program counters and the count. -/
def capture_backtrace (pcs : List Nat) (maxDepth : Nat) : List Nat × Nat :=
  unwindBacktrace pcs maxDepth [] 0

/-- A signal's disposition: either whatever was installed before this
library armed itself (identified abstractly), or the library's own
`crash_signal_handler`. -/
inductive SigAction where
  | original (id : Nat)
  | crash
deriving DecidableEq

/-- The process-wide registration state: the `g_crash_file_path`
buffer contents, `g_crash_fd`, the `g_old_handlers` table and the
kernel's per-signal disposition table. -/
structure CrashState where
  crash_file_path : List Char
  crash_fd : Int
  old_handlers : Nat → SigAction
  dispositions : Int → SigAction

/-- Observable system-call events performed by the handler. -/
inductive Event where
  | ewrite (fd : Int) (bytes : List Char)
  | eclose (fd : Int)
  | erestore (sig : Int) (act : SigAction)
  | eraise (sig : Int)
deriving DecidableEq

/-- The write events a call to `safe_write` produces. -/
def writeEv (fd : Int) (s : List Char) : List Event :=
  (safe_write fd (some s)).map (fun p => Event.ewrite p.1 p.2)

/-- The C string read back from `num_buf` after
`safe_itoa(v, num_buf, 16)`. -/
def hexStr (v : Nat) : List Char :=
  bufStr (safe_itoa v 16).1

/-- `"\n"` -/
def nlStr : List Char := ['\n']

/-- `"0x"` -/
def oxStr : List Char := ['0', 'x']

/-- `int fd = open(g_crash_file_path, ...); if (fd < 0) fd = g_crash_fd;`
`openRes` is the return value of the `open` call. -/
def handler_fd (st : CrashState) (openRes : Int) : Int :=
  if openRes < 0 then st.crash_fd else openRes

/-- The `if (fd >= 0) { ... }` block of `crash_signal_handler`: the
sequence of writes (signal name line, fault-address line, one line per
captured frame) followed by the conditional `close`. -/
def writePhase (fd crashFd : Int) (sig : Int) (si_addr : Nat) (pcs : List Nat) :
    List Event :=
  if 0 ≤ fd then
    writeEv fd (get_signal_name sig) ++ writeEv fd nlStr ++
    writeEv fd oxStr ++ writeEv fd (hexStr si_addr) ++ writeEv fd nlStr ++
    ((capture_backtrace pcs MAX_BACKTRACE_DEPTH).1.map
      (fun a => writeEv fd oxStr ++ writeEv fd (hexStr a) ++ writeEv fd nlStr)).flatten ++
    (if fd ≠ crashFd then [Event.eclose fd] else [])
  else []

/-- The `for (i = 0; i < g_num_signals; i++) if (g_signals[i] == sig)`
lookup: the index of `sig` in the monitored set, if any. -/
def sigIndexLoop (sigs : List Int) (sig : Int) (i : Nat) : Option Nat :=
  match sigs with
  | [] => none
  | s :: rest => if s = sig then some i else sigIndexLoop rest sig (i + 1)

/-- The `if (sig_index >= 0) sigaction(sig, &g_old_handlers[sig_index],
NULL);` step: restores the looked-up original action, recording the
restoration event. -/
def restorePhase (st : CrashState) (sig : Int) : CrashState × List Event :=
  match sigIndexLoop g_signals sig 0 with
  | some i =>
    ({ st with dispositions := fun x =>
        if x = sig then st.old_handlers i else st.dispositions x },
     [Event.erestore sig (st.old_handlers i)])
  | none => (st, [])

/-- `crash_signal_handler(sig, info, ucontext)`.  `si_addr` is
`(unsigned long)info->si_addr`, `pcs` the program counters the unwinder
presents, `openRes` the result of the fresh `open`.  Returns the
post-state and the event trace (writes and close, then the handler
restoration, then `raise(sig)`). -/
def crash_signal_handler (st : CrashState) (sig : Int) (si_addr : Nat)
    (pcs : List Nat) (openRes : Int) : CrashState × List Event :=
  let fd := handler_fd st openRes
  let wr := writePhase fd st.crash_fd sig si_addr pcs
  let rp := restorePhase st sig
  (rp.1, wr ++ rp.2 ++ [Event.eraise sig])

/-- The `for (i = 0; i < g_num_signals; i++) sigaction(g_signals[i],
&sa, &g_old_handlers[i]);` loop of `crash_handler_init`: installs the
crash handler for each monitored signal, saving the previous action at
the matching table index. -/
def installLoop (sigs : List Int) (i : Nat) (disp : Int → SigAction)
    (old : Nat → SigAction) : (Int → SigAction) × (Nat → SigAction) :=
  match sigs with
  | [] => (disp, old)
  | s :: rest =>
    let old' := fun j => if j = i then disp s else old j
    let disp' := fun x => if x = s then SigAction.crash else disp x
    installLoop rest (i + 1) disp' old'

/-- `crash_handler_init(crash_file_path)`: stores the path by bounded
copy, keeps the `open` result as `g_crash_fd`, and installs the handler
for all monitored signals.  `openRes` is the result of the `open`
call. -/
def crash_handler_init (st : CrashState) (path : List Char) (openRes : Int) :
    CrashState :=
  let buf := (safe_strcpy path PATH_BUFFER_SIZE).1
  let ins := installLoop g_signals 0 st.dispositions st.old_handlers
  { crash_file_path := buf
    crash_fd := openRes
    old_handlers := ins.2
    dispositions := ins.1 }

/-- The bytes of all `write` events of a trace, concatenated in order:
the crash artifact's contents. -/
def writtenBytes (tr : List Event) : List Char :=
  (tr.filterMap (fun e =>
    match e with
    | Event.ewrite _ b => some b
    | _ => none)).flatten

/-- The descriptors closed in a trace. -/
def closedFds (tr : List Event) : List Int :=
  tr.filterMap (fun e =>
    match e with
    | Event.eclose fd => some fd
    | _ => none)

/-- The handler restorations performed in a trace, as
(signal, restored action) pairs. -/
def restoreEvents (tr : List Event) : List (Int × SigAction) :=
  tr.filterMap (fun e =>
    match e with
    | Event.erestore s a => some (s, a)
    | _ => none)

/-- Delivering a signal consults the kernel's current disposition
table. -/
def deliver (st : CrashState) (sig : Int) : SigAction :=
  st.dispositions sig

/-- A newline-terminated line, as the handler writes it. -/
def lineOf (l : List Char) : List Char := l ++ nlStr

/-- The decoding used by the spec's round-trip property: value of one
digit character of the lowercase-hex alphabet. -/
def digitVal (c : Char) : Nat :=
  if '0' ≤ c ∧ c ≤ '9' then c.toNat - '0'.toNat
  else if 'a' ≤ c ∧ c ≤ 'f' then c.toNat - 'a'.toNat + 10
  else 0

/-- The decoding used by the spec's round-trip property: parse a
most-significant-first digit string in the given base. -/
def parseDigits (base : Nat) (s : List Char) : Nat :=
  s.foldl (fun acc c => acc * base + digitVal c) 0

/-- A concrete pre-arm state used to instantiate theorems at concrete
inputs: no stored path, invalid fallback descriptor, and a distinct
pre-existing disposition per signal. -/
def testState : CrashState :=
  { crash_file_path := []
    crash_fd := -1
    old_handlers := fun _ => SigAction.original 0
    dispositions := fun s => SigAction.original s.natAbs }

/-! ### Helper lemmas -/

/-- The manual scan of `safe_write` computes the string's length. -/
theorem scanLen_eq_length (s : List Char) : scanLen s = s.length := by
  induction s with
  | nil => rfl
  | cons c rest ih => simp [scanLen, ih]

/-- On a valid descriptor, `safe_write` issues exactly one write of the
whole string. -/
theorem safe_write_nonneg (fd : Int) (s : List Char) (h : 0 ≤ fd) :
    safe_write fd (some s) = [(fd, s)] := by
  simp [safe_write, scanLen_eq_length, not_lt.mpr h]

theorem writeEv_nonneg (fd : Int) (s : List Char) (h : 0 ≤ fd) :
    writeEv fd s = [Event.ewrite fd s] := by
  simp [writeEv, safe_write_nonneg fd s h]

/-- Reading back a buffer of non-NUL bytes followed by the terminator
gives exactly those bytes. -/
theorem bufStr_append_null (s : List Char) (h : ∀ c ∈ s, c ≠ nullChar) :
    bufStr (s ++ [nullChar]) = s := by
  induction s with
  | nil => rfl
  | cons c rest ih =>
    have hc : c ≠ nullChar := h c (by simp)
    have hrest : ∀ x ∈ rest, x ≠ nullChar := fun x hx => h x (by simp [hx])
    unfold bufStr at ih ⊢
    rw [List.cons_append, List.takeWhile_cons, if_pos (by simp [hc]), ih hrest]

/-- Digit characters of the lowercase-hex alphabet are never NUL. -/
theorem itoaDigits_ne_null (d : Nat) (h : d < 16) :
    itoaDigits.getD d nullChar ≠ nullChar := by
  interval_cases d <;> decide

/-- The decoding inverts the digit table on digits below 16. -/
theorem digitVal_itoaDigits (d : Nat) (h : d < 16) :
    digitVal (itoaDigits.getD d nullChar) = d := by
  interval_cases d <;> decide

/-- When the digit count fits in the remaining scratch room, the
`safe_itoa` loop produces exactly the base-`b` digits of `value`,
least-significant first, rendered through the digit table. -/
theorem itoaLoop_eq_digits (b : Nat) (hb : 2 ≤ b) :
    ∀ value room, (Nat.digits b value).length ≤ room →
      itoaLoop value b room =
        (Nat.digits b value).map (fun d => itoaDigits.getD d nullChar) := by
  intro value
  induction value using Nat.strong_induction_on with
  | _ value ih =>
    intro room hroom
    by_cases hv : value = 0
    · subst hv
      cases room <;> simp [itoaLoop]
    · have hv' : 0 < value := Nat.pos_of_ne_zero hv
      have hdig : Nat.digits b value = value % b :: Nat.digits b (value / b) :=
        Nat.digits_def' (by omega) hv'
      rw [hdig] at hroom ⊢
      simp only [List.length_cons] at hroom
      obtain ⟨r, rfl⟩ : ∃ r, room = r + 1 := ⟨room - 1, by omega⟩
      have hlt : value / b < value := Nat.div_lt_self hv' (by omega)
      simp only [itoaLoop, hv', if_pos]
      rw [ih (value / b) hlt r (by omega)]
      rfl

/-- Digits of `value` in base `b ≤ 16` render to non-NUL characters. -/
theorem digits_map_ne_null (b value : Nat) (hb2 : 2 ≤ b) (hb16 : b ≤ 16) :
    ∀ c ∈ (Nat.digits b value).map (fun d => itoaDigits.getD d nullChar),
      c ≠ nullChar := by
  intro c hc
  rcases List.mem_map.mp hc with ⟨d, hd, rfl⟩
  exact itoaDigits_ne_null d (lt_of_lt_of_le (Nat.digits_lt_base (by omega) hd) hb16)

/-- Folding the decoding over a rendered digit list (most-significant
first) recovers `Nat.ofDigits`. -/
theorem foldr_digitVal_eq_ofDigits (b : Nat) :
    ∀ D : List Nat, (∀ d ∈ D, d < 16) →
      (D.map (fun d => itoaDigits.getD d nullChar)).foldr
        (fun c acc => acc * b + digitVal c) 0 = Nat.ofDigits b D := by
  intro D
  induction D with
  | nil => intro _; simp [Nat.ofDigits]
  | cons d rest ih =>
    intro h
    have hd : d < 16 := h d (by simp)
    have hrest : ∀ x ∈ rest, x < 16 := fun x hx => h x (by simp [hx])
    simp only [List.map_cons, List.foldr_cons, ih hrest, Nat.ofDigits_cons,
      digitVal_itoaDigits d hd]
    ring

/-- Parsing the most-significant-first rendering of a digit list
recovers `Nat.ofDigits`. -/
theorem parse_reverse_map (b : Nat) (D : List Nat) (h : ∀ d ∈ D, d < 16) :
    parseDigits b ((D.map (fun d => itoaDigits.getD d nullChar)).reverse) =
      Nat.ofDigits b D := by
  unfold parseDigits
  rw [List.foldl_reverse]
  exact foldr_digitVal_eq_ofDigits b D h

/-- Within scratch capacity, the buffer `safe_itoa` writes is the
most-significant-first digit rendering followed by the terminator. -/
theorem safe_itoa_fst (v b : Nat) (hb2 : 2 ≤ b) (hv : v ≠ 0)
    (hlen : (Nat.digits b v).length ≤ INT_BUFFER_SIZE - 1) :
    (safe_itoa v b).1 =
      ((Nat.digits b v).map (fun d => itoaDigits.getD d nullChar)).reverse ++
        [nullChar] := by
  simp only [safe_itoa, if_neg hv]
  rw [itoaLoop_eq_digits b hb2 v (INT_BUFFER_SIZE - 1) hlen]

/-- Within scratch capacity, parsing the written C string back in the
same base recovers the value. -/
theorem safe_itoa_roundtrip (v b : Nat) (hb2 : 2 ≤ b) (hb16 : b ≤ 16)
    (hlen : (Nat.digits b v).length ≤ INT_BUFFER_SIZE - 1) :
    parseDigits b (bufStr (safe_itoa v b).1) = v := by
  by_cases hv : v = 0
  · subst hv
    have h0 : digitVal '0' = 0 := by decide
    have h1 : ('0' : Char) ≠ nullChar := by decide
    simp [safe_itoa, bufStr, List.takeWhile, parseDigits, h0, h1]
  · rw [safe_itoa_fst v b hb2 hv hlen]
    rw [bufStr_append_null _ (by
      intro c hc
      rcases List.mem_reverse.mp hc with hc'
      exact digits_map_ne_null b v hb2 hb16 c hc')]
    rw [parse_reverse_map b _ (fun d hd =>
      lt_of_lt_of_le (Nat.digits_lt_base (by omega) hd) hb16)]
    exact Nat.ofDigits_digits b v

/-- The `safe_strcpy` loop copies at most `max_len - 1 - i` characters. -/
theorem strcpyLoop_length (src : List Char) :
    ∀ i m, (strcpyLoop src i m).length ≤ m - 1 - i := by
  induction src with
  | nil => intro i m; simp [strcpyLoop]
  | cons c rest ih =>
    intro i m
    unfold strcpyLoop
    by_cases h : c ≠ nullChar ∧ i < m - 1
    · rw [if_pos h]
      have := ih (i + 1) m
      simp only [List.length_cons]
      omega
    · rw [if_neg h]
      simp

/-- On a NUL-free source the `safe_strcpy` loop is a bounded prefix
copy. -/
theorem strcpyLoop_no_null (src : List Char) :
    ∀ i m, nullChar ∉ src → strcpyLoop src i m = src.take (m - 1 - i) := by
  induction src with
  | nil => intro i m _; simp [strcpyLoop]
  | cons c rest ih =>
    intro i m h
    have hc : c ≠ nullChar := fun hce => h (hce ▸ List.mem_cons_self c rest)
    have hrest : nullChar ∉ rest := fun hm => h (List.mem_cons_of_mem c hm)
    unfold strcpyLoop
    by_cases hi : i < m - 1
    · rw [if_pos ⟨hc, hi⟩, ih (i + 1) m hrest]
      obtain ⟨k, hk⟩ : ∃ k, m - 1 - i = k + 1 := ⟨m - 1 - i - 1, by omega⟩
      rw [hk]
      have : m - 1 - (i + 1) = k := by omega
      rw [this, List.take_succ_cons]
    · rw [if_neg (by tauto)]
      have : m - 1 - i = 0 := by omega
      rw [this, List.take_zero]

/-- Behaviour of the full unwinding walk from any intermediate state:
it appends the non-zero program counters, capped by the room left. -/
theorem unwindBacktrace_spec (pcs : List Nat) :
    ∀ (buf : List Nat) (c d : Nat), c ≤ d →
      unwindBacktrace pcs d buf c =
        (buf ++ (pcs.filter (fun x => x ≠ 0)).take (d - c),
         c + ((pcs.filter (fun x => x ≠ 0)).take (d - c)).length) := by
  induction pcs with
  | nil => intro buf c d _; simp [unwindBacktrace]
  | cons pc rest ih =>
    intro buf c d h
    by_cases hcd : d ≤ c
    · have hc : c = d := le_antisymm h hcd
      subst hc
      simp [unwindBacktrace, unwind_callback, le_refl]
    · push_neg at hcd
      have hnot : ¬ c ≥ d := by omega
      by_cases hpc : pc = 0
      · subst hpc
        simp only [unwindBacktrace, unwind_callback, if_neg hnot, ne_eq,
          not_true_eq_false, if_false, reduceIte]
        rw [ih buf c d h]
        simp
      · simp only [unwindBacktrace, unwind_callback, if_neg hnot, ne_eq, hpc,
          not_false_eq_true, if_true, reduceIte]
        rw [if_neg (by decide)]
        rw [ih (buf ++ [pc]) (c + 1) d (by omega)]
        have hfil : (pc :: rest).filter (fun x => x ≠ 0) =
            pc :: rest.filter (fun x => x ≠ 0) := by
          simp [List.filter_cons, hpc]
        obtain ⟨k, hk⟩ : ∃ k, d - c = k + 1 := ⟨d - c - 1, by omega⟩
        have hk' : d - (c + 1) = k := by omega
        rw [hfil, hk, hk', List.take_succ_cons]
        simp only [List.append_assoc, List.singleton_append, List.length_cons]
        exact Prod.ext rfl (by omega)

/-- `writtenBytes` distributes over trace concatenation. -/
theorem writtenBytes_append (a b : List Event) :
    writtenBytes (a ++ b) = writtenBytes a ++ writtenBytes b := by
  simp [writtenBytes, List.filterMap_append]

/-- `closedFds` distributes over trace concatenation. -/
theorem closedFds_append (a b : List Event) :
    closedFds (a ++ b) = closedFds a ++ closedFds b := by
  simp [closedFds, List.filterMap_append]

/-- A `safe_write` call writes bytes and closes nothing. -/
theorem closedFds_writeEv (fd : Int) (s : List Char) :
    closedFds (writeEv fd s) = [] := by
  unfold closedFds writeEv safe_write
  by_cases h : fd < 0 <;> simp [h]

/-- On a valid descriptor the bytes recorded for a `safe_write` of a
C string are that string. -/
theorem writtenBytes_writeEv (fd : Int) (s : List Char) (h : 0 ≤ fd) :
    writtenBytes (writeEv fd s) = s := by
  rw [writeEv_nonneg fd s h]
  simp [writtenBytes]

/-- Bytes written by the per-frame loop of the handler. -/
theorem writtenBytes_frames (fd : Int) (h : 0 ≤ fd) (frames : List Nat) :
    writtenBytes ((frames.map
        (fun a => writeEv fd oxStr ++ writeEv fd (hexStr a) ++ writeEv fd nlStr)).flatten) =
      (frames.map (fun a => lineOf (oxStr ++ hexStr a))).flatten := by
  have hw : ∀ s, writtenBytes (writeEv fd s) = s :=
    fun s => writtenBytes_writeEv fd s h
  induction frames with
  | nil => simp [writtenBytes]
  | cons a rest ih =>
    rw [List.map_cons, List.flatten_cons, writtenBytes_append,
      writtenBytes_append, writtenBytes_append, hw, hw, hw, ih,
      List.map_cons, List.flatten_cons]
    simp [lineOf]

/-- The per-frame loop of the handler closes nothing. -/
theorem closedFds_frames (fd : Int) (frames : List Nat) :
    closedFds ((frames.map
        (fun a => writeEv fd oxStr ++ writeEv fd (hexStr a) ++ writeEv fd nlStr)).flatten) = [] := by
  induction frames with
  | nil => simp [closedFds]
  | cons a rest ih =>
    rw [List.map_cons, List.flatten_cons, closedFds_append, closedFds_append,
      closedFds_append, closedFds_writeEv, closedFds_writeEv, closedFds_writeEv, ih]
    rfl

/-- `eclose` events of a trace are exactly the members of
`closedFds`. -/
theorem eclose_mem_iff (f : Int) (tr : List Event) :
    Event.eclose f ∈ tr ↔ f ∈ closedFds tr := by
  unfold closedFds
  rw [List.mem_filterMap]
  constructor
  · intro h
    exact ⟨Event.eclose f, h, rfl⟩
  · rintro ⟨e, he, hg⟩
    cases e <;> simp_all

/-- A 64-bit value has at most 16 hexadecimal digits. -/
theorem digits16_len_le (v : Nat) (hv : v < 2 ^ 64) :
    (Nat.digits 16 v).length ≤ 16 := by
  by_cases h0 : v = 0
  · subst h0; simp
  · rw [Nat.digits_len 16 v (by norm_num) h0]
    have hpow : (2 : Nat) ^ 64 = 16 ^ 16 := by norm_num
    have := Nat.log_lt_of_lt_pow h0 (hpow ▸ hv)
    omega

/-- Within scratch capacity, the count `safe_itoa` returns is the
number of digit characters written. -/
theorem safe_itoa_snd (v b : Nat) (hb2 : 2 ≤ b) (hv : v ≠ 0)
    (hlen : (Nat.digits b v).length ≤ INT_BUFFER_SIZE - 1) :
    (safe_itoa v b).2 =
      ((Nat.digits b v).map (fun d => itoaDigits.getD d nullChar)).length := by
  simp only [safe_itoa, if_neg hv]
  rw [itoaLoop_eq_digits b hb2 v (INT_BUFFER_SIZE - 1) hlen]
  simp

/-- Digit-table entries are members of the digit table. -/
theorem itoaDigits_getD_mem (d : Nat) (h : d < 16) :
    itoaDigits.getD d nullChar ∈ itoaDigits := by
  interval_cases d <;> decide

/-- For a 64-bit value the written hexadecimal C string decodes back to
the value and uses only the lowercase-hex alphabet. -/
theorem hexStr_spec (v : Nat) (hv : v < 2 ^ 64) :
    parseDigits 16 (hexStr v) = v ∧ ∀ c ∈ hexStr v, c ∈ itoaDigits := by
  have hlen : (Nat.digits 16 v).length ≤ INT_BUFFER_SIZE - 1 := by
    have := digits16_len_le v hv
    unfold INT_BUFFER_SIZE
    omega
  refine ⟨safe_itoa_roundtrip v 16 (by norm_num) (by norm_num) hlen, ?_⟩
  intro c hc
  by_cases hv0 : v = 0
  · subst hv0
    have : hexStr 0 = ['0'] := by decide
    rw [this] at hc
    simp at hc
    subst hc
    decide
  · unfold hexStr at hc
    rw [safe_itoa_fst v 16 (by norm_num) hv0 hlen] at hc
    rw [bufStr_append_null _ (fun x hx =>
      digits_map_ne_null 16 v (by norm_num) (by norm_num) x
        (List.mem_reverse.mp hx))] at hc
    rcases List.mem_map.mp (List.mem_reverse.mp hc) with ⟨d, hd, rfl⟩
    exact itoaDigits_getD_mem d (Nat.digits_lt_base (by norm_num) hd)

/-- `erestore` events of a trace are exactly the members of
`restoreEvents`. -/
theorem erestore_mem_iff (s : Int) (a : SigAction) (tr : List Event) :
    Event.erestore s a ∈ tr ↔ (s, a) ∈ restoreEvents tr := by
  unfold restoreEvents
  rw [List.mem_filterMap]
  constructor
  · intro h
    exact ⟨Event.erestore s a, h, rfl⟩
  · rintro ⟨e, he, hg⟩
    cases e <;> simp_all

/-- `restoreEvents` distributes over trace concatenation. -/
theorem restoreEvents_append (a b : List Event) :
    restoreEvents (a ++ b) = restoreEvents a ++ restoreEvents b := by
  simp [restoreEvents, List.filterMap_append]

/-- A `safe_write` call restores no handler. -/
theorem restoreEvents_writeEv (fd : Int) (s : List Char) :
    restoreEvents (writeEv fd s) = [] := by
  unfold restoreEvents writeEv safe_write
  by_cases h : fd < 0 <;> simp [h]

/-- The per-frame loop of the handler restores no handler. -/
theorem restoreEvents_frames (fd : Int) (frames : List Nat) :
    restoreEvents ((frames.map
        (fun a => writeEv fd oxStr ++ writeEv fd (hexStr a) ++ writeEv fd nlStr)).flatten) = [] := by
  induction frames with
  | nil => simp [restoreEvents]
  | cons a rest ih =>
    rw [List.map_cons, List.flatten_cons, restoreEvents_append,
      restoreEvents_append, restoreEvents_append, restoreEvents_writeEv,
      restoreEvents_writeEv, restoreEvents_writeEv, ih]
    rfl

/-- The write phase restores no handler. -/
theorem restoreEvents_writePhase (fd crashFd sig : Int) (addr : Nat)
    (pcs : List Nat) :
    restoreEvents (writePhase fd crashFd sig addr pcs) = [] := by
  unfold writePhase
  by_cases h : 0 ≤ fd
  · rw [if_pos h]
    simp only [restoreEvents_append, restoreEvents_writeEv,
      restoreEvents_frames]
    by_cases h2 : fd ≠ crashFd <;> simp [h2, restoreEvents]
  · rw [if_neg h]
    rfl

/-- The restoration phase writes no bytes. -/
theorem writtenBytes_restore (st : CrashState) (sig : Int) :
    writtenBytes (restorePhase st sig).2 = [] := by
  unfold restorePhase
  cases h : sigIndexLoop g_signals sig 0 <;> simp [writtenBytes]

/-- The restoration phase closes no descriptor. -/
theorem closedFds_restore (st : CrashState) (sig : Int) :
    closedFds (restorePhase st sig).2 = [] := by
  unfold restorePhase
  cases h : sigIndexLoop g_signals sig 0 <;> simp [closedFds]

/-- The restoration phase leaves every field except the faulting
signal's disposition unchanged. -/
theorem restorePhase_frame (st : CrashState) (sig : Int) :
    (restorePhase st sig).1.crash_file_path = st.crash_file_path ∧
    (restorePhase st sig).1.crash_fd = st.crash_fd ∧
    (restorePhase st sig).1.old_handlers = st.old_handlers ∧
    ∀ s, s ≠ sig → (restorePhase st sig).1.dispositions s = st.dispositions s := by
  unfold restorePhase
  cases h : sigIndexLoop g_signals sig 0 with
  | none => exact ⟨rfl, rfl, rfl, fun s _ => rfl⟩
  | some i =>
    refine ⟨rfl, rfl, rfl, fun s hs => ?_⟩
    simp [hs]

/-- Bytes written by the handler's write phase on a usable
descriptor: the signal-name line, the fault-address line, then one line
per captured frame. -/
theorem writtenBytes_writePhase_pos (fd crashFd sig : Int) (addr : Nat)
    (pcs : List Nat) (h : 0 ≤ fd) :
    writtenBytes (writePhase fd crashFd sig addr pcs) =
      lineOf (get_signal_name sig) ++ lineOf (oxStr ++ hexStr addr) ++
      ((capture_backtrace pcs MAX_BACKTRACE_DEPTH).1.map
        (fun a => lineOf (oxStr ++ hexStr a))).flatten := by
  have hw : ∀ s, writtenBytes (writeEv fd s) = s :=
    fun s => writtenBytes_writeEv fd s h
  have hcl : writtenBytes (if fd ≠ crashFd then [Event.eclose fd] else []) = [] := by
    by_cases h2 : fd ≠ crashFd <;> simp [h2, writtenBytes]
  unfold writePhase
  rw [if_pos h]
  simp only [writtenBytes_append, hw, writtenBytes_frames fd h, hcl]
  simp [lineOf]

/-- Descriptors closed by the handler's write phase. -/
theorem closedFds_writePhase (fd crashFd sig : Int) (addr : Nat)
    (pcs : List Nat) :
    closedFds (writePhase fd crashFd sig addr pcs) =
      if 0 ≤ fd ∧ fd ≠ crashFd then [fd] else [] := by
  unfold writePhase
  by_cases h : 0 ≤ fd
  · rw [if_pos h]
    simp only [closedFds_append, closedFds_writeEv, closedFds_frames]
    by_cases h2 : fd ≠ crashFd
    · simp [closedFds, h, h2]
    · simp [closedFds, h, h2]
  · rw [if_neg h]
    simp [closedFds, h]

/-- The handler's full trace is the write phase, the restoration
phase, then the re-raise. -/
theorem crash_signal_handler_eq (st : CrashState) (sig : Int) (addr : Nat)
    (pcs : List Nat) (openRes : Int) :
    crash_signal_handler st sig addr pcs openRes =
      ((restorePhase st sig).1,
       writePhase (handler_fd st openRes) st.crash_fd sig addr pcs ++
         (restorePhase st sig).2 ++ [Event.eraise sig]) := rfl

example : safe_itoa 0 16 = (['0', nullChar], 1) := by decide
example : safe_itoa 255 16 = (['f', 'f', nullChar], 2) := by decide
example : safe_itoa 255 10 = (['2', '5', '5', nullChar], 3) := by decide
example : parseDigits 16 (hexStr 48879) = 48879 := by decide
example : capture_backtrace [5, 0, 7, 9] 2 = ([5, 7], 2) := by decide
example : safe_strcpy ['a', 'b', 'c'] 3 = (['a', 'b', nullChar], 2) := by decide
example : safe_strcpy ['a'] 0 = ([nullChar], 0) := by decide
example : safe_write (-1) (some ['a']) = [] := by decide
example : safe_write 3 (some ['a', 'b']) = [(3, ['a', 'b'])] := by decide
example : sigIndexLoop g_signals SIGTRAP 0 = some 5 := by decide

/-- The backtrace capture computes the non-zero program counters in
walk order, capped at the maximum depth, with the count of recorded
values. -/
theorem capture_backtrace_eq (pcs : List Nat) (d : Nat) :
    capture_backtrace pcs d =
      ((pcs.filter (fun x => x ≠ 0)).take d,
       ((pcs.filter (fun x => x ≠ 0)).take d).length) := by
  unfold capture_backtrace
  rw [unwindBacktrace_spec pcs [] 0 d (Nat.zero_le d)]
  simp

/-! ### Claim theorems -/

/-- C6: for every program-counter sequence and maximum depth `d`, the
backtrace capture records exactly the non-zero program counters in walk
order, skipping zeros, stopping once `d` values are recorded, and
returns a count equal to the number recorded and never exceeding
`d`. -/
theorem capture_backtrace_claim (pcs : List Nat) (d : Nat) :
    (capture_backtrace pcs d).1 = (pcs.filter (fun x => x ≠ 0)).take d ∧
    (capture_backtrace pcs d).2 = (capture_backtrace pcs d).1.length ∧
    (capture_backtrace pcs d).2 ≤ d := by
  rw [capture_backtrace_eq]
  exact ⟨rfl, rfl, List.length_take_le d (pcs.filter (fun x => x ≠ 0))⟩

/-- C7: `safe_write` performs no operation on a negative descriptor or
a NULL string; otherwise it computes the length by a manual scan and
issues exactly one write of exactly that many bytes. -/
theorem safe_write_claim (fd : Int) (str : Option (List Char)) :
    ((fd < 0 ∨ str = none) → safe_write fd str = []) ∧
    (0 ≤ fd → ∀ s, str = some s →
      safe_write fd str = [(fd, s)] ∧ scanLen s = s.length) := by
  constructor
  · rintro (h | h)
    · cases str with
      | none => rfl
      | some s => simp [safe_write, h]
    · subst h; rfl
  · rintro hfd s rfl
    exact ⟨safe_write_nonneg fd s hfd, scanLen_eq_length s⟩

/-- C7 witness. -/
theorem safe_write_claim_witness : safe_write (-1) (some ['a']) = [] :=
  (safe_write_claim (-1) (some ['a'])).1 (Or.inl (by decide))

/-- C5 counterexample: with destination capacity 0, `safe_strcpy`
still writes the NUL terminator at index 0, i.e. one byte outside the
first 0 bytes of the destination. -/
theorem safe_strcpy_zero_cap_cex :
    (safe_strcpy ['a'] 0).1 = [nullChar] ∧
    ¬ ((safe_strcpy ['a'] 0).1.length ≤ 0) := by decide

/-- C5 (amended to capacities `c ≥ 1`): `safe_strcpy` writes at most
`c` bytes in total, copies at most `c - 1` characters, and writes the
NUL terminator at an index below `c`. -/
theorem safe_strcpy_bounds (src : List Char) (c : Nat) (hc : 1 ≤ c) :
    (safe_strcpy src c).1.length ≤ c ∧
    (safe_strcpy src c).2 ≤ c - 1 ∧
    (safe_strcpy src c).2 < c ∧
    (safe_strcpy src c).1[(safe_strcpy src c).2]? = some nullChar := by
  have hl := strcpyLoop_length src 0 c
  have h1 : (safe_strcpy src c).1 = strcpyLoop src 0 c ++ [nullChar] := rfl
  have h2 : (safe_strcpy src c).2 = (strcpyLoop src 0 c).length := rfl
  rw [h1, h2]
  refine ⟨?_, by omega, by omega, List.getElem?_concat_length _ _⟩
  simp only [List.length_append, List.length_cons, List.length_nil]
  omega

/-- C5 witness. -/
theorem safe_strcpy_bounds_witness : (safe_strcpy ['h', 'i'] 4).1.length ≤ 4 :=
  (safe_strcpy_bounds ['h', 'i'] 4 (by decide)).1

/-- C4: for bases 2..16, within the scratch capacity of
`INT_BUFFER_SIZE - 1` digits, decoding the text `safe_itoa` produced
recovers the value exactly; digits are emitted most-significant first
from the lowercase-hex alphabet, the output is NUL-terminated, and
zero yields exactly "0". -/
theorem safe_itoa_decode (v b : Nat) (hb2 : 2 ≤ b) (hb16 : b ≤ 16)
    (hlen : (Nat.digits b v).length ≤ INT_BUFFER_SIZE - 1) :
    parseDigits b (bufStr (safe_itoa v b).1) = v ∧
    (v ≠ 0 → (safe_itoa v b).1 =
      ((Nat.digits b v).map (fun d => itoaDigits.getD d nullChar)).reverse ++
        [nullChar]) ∧
    safe_itoa 0 b = (['0', nullChar], 1) ∧
    ∃ s, (safe_itoa v b).1 = s ++ [nullChar] ∧ nullChar ∉ s := by
  refine ⟨safe_itoa_roundtrip v b hb2 hb16 hlen,
    fun hv => safe_itoa_fst v b hb2 hv hlen, by simp [safe_itoa], ?_⟩
  by_cases hv : v = 0
  · subst hv
    exact ⟨['0'], rfl, by decide⟩
  · refine ⟨((Nat.digits b v).map (fun d => itoaDigits.getD d nullChar)).reverse,
      safe_itoa_fst v b hb2 hv hlen, ?_⟩
    intro hmem
    exact digits_map_ne_null b v hb2 hb16 nullChar (List.mem_reverse.mp hmem) rfl

/-- C4 witness. -/
theorem safe_itoa_decode_witness :
    parseDigits 16 (bufStr (safe_itoa 255 16).1) = 255 :=
  (safe_itoa_decode 255 16 (by norm_num) (by norm_num)
    (by
      have := digits16_len_le 255 (by norm_num)
      unfold INT_BUFFER_SIZE
      omega)).1

/-- C10: for base 16 and any unsigned 64-bit value, `safe_itoa` never
truncates: at most 16 digits are needed, strictly fewer than the
scratch capacity of 23, the emitted string is the complete
representation, and the returned count is the index of the NUL
terminator (the length of the written string). -/
theorem safe_itoa_u64_complete (v : Nat) (hv : v < 2 ^ 64) :
    (Nat.digits 16 v).length ≤ 16 ∧
    (16 : Nat) < INT_BUFFER_SIZE - 1 ∧
    parseDigits 16 (bufStr (safe_itoa v 16).1) = v ∧
    (safe_itoa v 16).1 = bufStr (safe_itoa v 16).1 ++ [nullChar] ∧
    (safe_itoa v 16).2 = (bufStr (safe_itoa v 16).1).length := by
  have hlen16 := digits16_len_le v hv
  have hlen : (Nat.digits 16 v).length ≤ INT_BUFFER_SIZE - 1 := by
    unfold INT_BUFFER_SIZE
    omega
  have hbuf : v ≠ 0 → bufStr (safe_itoa v 16).1 =
      ((Nat.digits 16 v).map (fun d => itoaDigits.getD d nullChar)).reverse := by
    intro hv0
    rw [safe_itoa_fst v 16 (by norm_num) hv0 hlen]
    exact bufStr_append_null _ (fun x hx =>
      digits_map_ne_null 16 v (by norm_num) (by norm_num) x
        (List.mem_reverse.mp hx))
  refine ⟨hlen16, by norm_num [INT_BUFFER_SIZE],
    safe_itoa_roundtrip v 16 (by norm_num) (by norm_num) hlen, ?_, ?_⟩
  · by_cases hv0 : v = 0
    · subst hv0
      decide
    · rw [hbuf hv0, safe_itoa_fst v 16 (by norm_num) hv0 hlen]
  · by_cases hv0 : v = 0
    · subst hv0
      decide
    · rw [hbuf hv0, safe_itoa_snd v 16 (by norm_num) hv0 hlen]
      simp

/-- C10 witness. -/
theorem safe_itoa_u64_complete_witness :
    parseDigits 16 (bufStr (safe_itoa 48879 16).1) = 48879 :=
  (safe_itoa_u64_complete 48879 (by norm_num)).2.2.1

/-- C1: for a monitored signal delivered while a usable descriptor is
available, the artifact written is, in order and each terminated by a
newline: the canonical signal name (one of the six monitored names,
"UNKNOWN" otherwise), the faulting address as 0x-prefixed lowercase
hexadecimal, then the captured frame addresses one per line each
0x-prefixed, with the number of frame lines bounded by the configured
maximum backtrace depth. -/
theorem crash_artifact_format (st : CrashState) (sig : Int) (addr : Nat)
    (pcs : List Nat) (openRes : Int)
    (hfd : 0 ≤ handler_fd st openRes)
    (haddr : addr < 2 ^ 64) (hpcs : ∀ p ∈ pcs, p < 2 ^ 64) :
    writtenBytes (crash_signal_handler st sig addr pcs openRes).2 =
      lineOf (get_signal_name sig) ++ lineOf (oxStr ++ hexStr addr) ++
      ((capture_backtrace pcs MAX_BACKTRACE_DEPTH).1.map
        (fun a => lineOf (oxStr ++ hexStr a))).flatten ∧
    (capture_backtrace pcs MAX_BACKTRACE_DEPTH).1.length ≤ MAX_BACKTRACE_DEPTH ∧
    get_signal_name sig ∈ ["SIGSEGV".toList, "SIGABRT".toList, "SIGBUS".toList,
      "SIGFPE".toList, "SIGILL".toList, "SIGTRAP".toList, "UNKNOWN".toList] ∧
    (sig ∉ g_signals → get_signal_name sig = "UNKNOWN".toList) ∧
    parseDigits 16 (hexStr addr) = addr ∧
    (∀ c ∈ hexStr addr, c ∈ itoaDigits) ∧
    (∀ a ∈ (capture_backtrace pcs MAX_BACKTRACE_DEPTH).1,
      parseDigits 16 (hexStr a) = a ∧ ∀ c ∈ hexStr a, c ∈ itoaDigits) := by
  have htr : (crash_signal_handler st sig addr pcs openRes).2 =
      writePhase (handler_fd st openRes) st.crash_fd sig addr pcs ++
        (restorePhase st sig).2 ++ [Event.eraise sig] := rfl
  refine ⟨?_, ?_, ?_, ?_, (hexStr_spec addr haddr).1, (hexStr_spec addr haddr).2, ?_⟩
  · rw [htr, writtenBytes_append, writtenBytes_append, writtenBytes_restore,
      writtenBytes_writePhase_pos _ _ _ _ _ hfd]
    have : writtenBytes [Event.eraise sig] = [] := rfl
    rw [this]
    simp
  · rw [capture_backtrace_eq]
    exact List.length_take_le MAX_BACKTRACE_DEPTH _
  · unfold get_signal_name
    split_ifs <;> simp
  · intro h
    simp only [g_signals, List.mem_cons, List.not_mem_nil, or_false, not_or] at h
    obtain ⟨h1, h2, h3, h4, h5, h6⟩ := h
    simp [get_signal_name, h1, h2, h3, h4, h5, h6]
  · intro a ha
    rw [capture_backtrace_eq] at ha
    have hmem : a ∈ pcs :=
      List.mem_of_mem_filter (List.mem_of_mem_take ha)
    have hb := hpcs a hmem
    exact ⟨(hexStr_spec a hb).1, (hexStr_spec a hb).2⟩

/-- C1 witness. -/
theorem crash_artifact_format_witness :
    get_signal_name SIGSEGV ∈ ["SIGSEGV".toList, "SIGABRT".toList,
      "SIGBUS".toList, "SIGFPE".toList, "SIGILL".toList, "SIGTRAP".toList,
      "UNKNOWN".toList] :=
  (crash_artifact_format testState SIGSEGV 0 [] 3 (by decide) (by norm_num)
    (by decide)).2.2.1

/-- C3: on each invocation the handler uses the fresh descriptor when
the open succeeded, otherwise the fallback captured at arm time; if the
fallback is also negative, every write and close is skipped and the
handler proceeds directly to restoration and re-raise. -/
theorem handler_fd_fallback (st : CrashState) (sig : Int) (addr : Nat)
    (pcs : List Nat) (openRes : Int) :
    (0 ≤ openRes → handler_fd st openRes = openRes) ∧
    (openRes < 0 → handler_fd st openRes = st.crash_fd) ∧
    (openRes < 0 → st.crash_fd < 0 →
      writtenBytes (crash_signal_handler st sig addr pcs openRes).2 = [] ∧
      closedFds (crash_signal_handler st sig addr pcs openRes).2 = [] ∧
      (crash_signal_handler st sig addr pcs openRes).2 =
        (restorePhase st sig).2 ++ [Event.eraise sig] ∧
      (crash_signal_handler st sig addr pcs openRes).1 =
        (restorePhase st sig).1) := by
  refine ⟨fun h => ?_, fun h => ?_, fun h1 h2 => ?_⟩
  · unfold handler_fd
    rw [if_neg (not_lt.mpr h)]
  · unfold handler_fd
    rw [if_pos h]
  · have hfd : handler_fd st openRes = st.crash_fd := by
      unfold handler_fd
      rw [if_pos h1]
    have hneg : ¬ 0 ≤ handler_fd st openRes := by
      rw [hfd]
      omega
    have hwp : writePhase (handler_fd st openRes) st.crash_fd sig addr pcs = [] := by
      unfold writePhase
      rw [if_neg hneg]
    have htr : (crash_signal_handler st sig addr pcs openRes).2 =
        writePhase (handler_fd st openRes) st.crash_fd sig addr pcs ++
          (restorePhase st sig).2 ++ [Event.eraise sig] := rfl
    have htr' : (crash_signal_handler st sig addr pcs openRes).2 =
        (restorePhase st sig).2 ++ [Event.eraise sig] := by
      rw [htr, hwp]
      simp
    refine ⟨?_, ?_, htr', rfl⟩
    · rw [htr', writtenBytes_append, writtenBytes_restore]
      rfl
    · rw [htr', closedFds_append, closedFds_restore]
      rfl

/-- C3 witness. -/
theorem handler_fd_fallback_witness :
    writtenBytes (crash_signal_handler testState SIGSEGV 0 [] (-1)).2 = [] :=
  ((handler_fd_fallback testState SIGSEGV 0 [] (-1)).2.2 (by decide)
    (by decide)).1

/-- C9: the descriptor used by the write phase is closed exactly when
it is valid and differs from the persistent fallback descriptor (so a
freshly opened descriptor is closed iff it differs from the fallback);
the fallback descriptor is never closed; and the path buffer, fallback
descriptor, Original-Handler Table and the dispositions of all other
signals are left unchanged. -/
theorem handler_close_frame (st : CrashState) (sig : Int) (addr : Nat)
    (pcs : List Nat) (openRes : Int) :
    closedFds (crash_signal_handler st sig addr pcs openRes).2 =
      (if 0 ≤ handler_fd st openRes ∧ handler_fd st openRes ≠ st.crash_fd
        then [handler_fd st openRes] else []) ∧
    Event.eclose st.crash_fd ∉ (crash_signal_handler st sig addr pcs openRes).2 ∧
    (0 ≤ openRes →
      (Event.eclose openRes ∈ (crash_signal_handler st sig addr pcs openRes).2 ↔
        openRes ≠ st.crash_fd)) ∧
    (crash_signal_handler st sig addr pcs openRes).1.crash_file_path =
      st.crash_file_path ∧
    (crash_signal_handler st sig addr pcs openRes).1.crash_fd = st.crash_fd ∧
    (crash_signal_handler st sig addr pcs openRes).1.old_handlers =
      st.old_handlers ∧
    (∀ s, s ≠ sig →
      (crash_signal_handler st sig addr pcs openRes).1.dispositions s =
        st.dispositions s) := by
  have htr : (crash_signal_handler st sig addr pcs openRes).2 =
      writePhase (handler_fd st openRes) st.crash_fd sig addr pcs ++
        (restorePhase st sig).2 ++ [Event.eraise sig] := rfl
  have hcl : closedFds (crash_signal_handler st sig addr pcs openRes).2 =
      (if 0 ≤ handler_fd st openRes ∧ handler_fd st openRes ≠ st.crash_fd
        then [handler_fd st openRes] else []) := by
    rw [htr, closedFds_append, closedFds_append, closedFds_restore,
      closedFds_writePhase]
    have : closedFds [Event.eraise sig] = [] := rfl
    rw [this]
    simp
  have hframe := restorePhase_frame st sig
  refine ⟨hcl, ?_, ?_, hframe.1, hframe.2.1, hframe.2.2.1, hframe.2.2.2⟩
  · rw [eclose_mem_iff, hcl]
    by_cases hc : 0 ≤ handler_fd st openRes ∧ handler_fd st openRes ≠ st.crash_fd
    · rw [if_pos hc]
      intro hmem
      simp only [List.mem_singleton] at hmem
      exact hc.2 hmem.symm
    · rw [if_neg hc]
      simp
  · intro ho
    have hfd : handler_fd st openRes = openRes := by
      unfold handler_fd
      rw [if_neg (not_lt.mpr ho)]
    rw [eclose_mem_iff, hcl, hfd]
    constructor
    · intro hmem
      by_cases hcond : 0 ≤ openRes ∧ openRes ≠ st.crash_fd
      · exact hcond.2
      · rw [if_neg hcond] at hmem
        cases hmem
    · intro hne
      rw [if_pos ⟨ho, hne⟩]
      simp

/-- C9 witness. -/
theorem handler_close_frame_witness :
    Event.eclose 3 ∈ (crash_signal_handler testState SIGSEGV 0 [] 3).2 ↔
      (3 : Int) ≠ testState.crash_fd :=
  (handler_close_frame testState SIGSEGV 0 [] 3).2.2.1 (by decide)

/-- C2: the fault handler looks up the signal's position in the
monitored set, restores that signal's action to the Original-Handler
Table entry at the same index before re-raising, skips restoration when
the signal is not in the set, and consequently a second delivery of the
same signal after an armed fault invokes the pre-arm disposition, not
the fault dispatcher. -/
theorem handler_restores_original (st st0 : CrashState) (path : List Char)
    (sig : Int) (addr addr2 : Nat) (pcs pcs2 : List Nat)
    (openRes initOpen openRes2 : Int) :
    (∀ i, i < g_num_signals → g_signals.getD i 0 = sig →
      sigIndexLoop g_signals sig 0 = some i) ∧
    (∀ i, sigIndexLoop g_signals sig 0 = some i →
      (crash_signal_handler st sig addr pcs openRes).1.dispositions sig =
        st.old_handlers i ∧
      ∃ t1 t3, (crash_signal_handler st sig addr pcs openRes).2 =
        t1 ++ [Event.erestore sig (st.old_handlers i)] ++
          [Event.eraise sig] ++ t3) ∧
    (sigIndexLoop g_signals sig 0 = none →
      (crash_signal_handler st sig addr pcs openRes).1 = st ∧
      restoreEvents (crash_signal_handler st sig addr pcs openRes).2 = []) ∧
    (sig ∈ g_signals →
      deliver (crash_signal_handler (crash_handler_init st0 path initOpen)
        sig addr2 pcs2 openRes2).1 sig = st0.dispositions sig) := by
  refine ⟨?_, ?_, ?_, ?_⟩
  · intro i hi hg
    have hi6 : i < 6 := hi
    interval_cases i <;>
      (simp only [g_signals, SIGSEGV, SIGABRT, SIGBUS, SIGFPE, SIGILL, SIGTRAP,
        List.getD] at hg; subst hg; decide)
  · intro i hidx
    constructor
    · show (restorePhase st sig).1.dispositions sig = st.old_handlers i
      unfold restorePhase
      rw [hidx]
      simp
    · refine ⟨writePhase (handler_fd st openRes) st.crash_fd sig addr pcs,
        [], ?_⟩
      have htr : (crash_signal_handler st sig addr pcs openRes).2 =
          writePhase (handler_fd st openRes) st.crash_fd sig addr pcs ++
            (restorePhase st sig).2 ++ [Event.eraise sig] := rfl
      rw [htr]
      unfold restorePhase
      rw [hidx]
      simp
  · intro hnone
    constructor
    · show (restorePhase st sig).1 = st
      unfold restorePhase
      rw [hnone]
    · have htr : (crash_signal_handler st sig addr pcs openRes).2 =
          writePhase (handler_fd st openRes) st.crash_fd sig addr pcs ++
            (restorePhase st sig).2 ++ [Event.eraise sig] := rfl
      rw [htr, restoreEvents_append, restoreEvents_append,
        restoreEvents_writePhase]
      have h2 : (restorePhase st sig).2 = [] := by
        unfold restorePhase
        rw [hnone]
      rw [h2]
      rfl
  · intro hmem
    fin_cases hmem <;> rfl

/-- C2 witness. -/
theorem handler_restores_original_witness :
    deliver (crash_signal_handler (crash_handler_init testState ['a'] (-1))
      SIGSEGV 0 [] (-1)).1 SIGSEGV = testState.dispositions SIGSEGV :=
  (handler_restores_original testState testState ['a'] SIGSEGV 0 0 [] []
    (-1) (-1) (-1)).2.2.2 (by decide)

/-- C8: initialization stores the path via the bounded copy
(truncating silently), keeps the open result as the fallback
descriptor, and installs the fault handler for the six monitored
signals, saving each previously-installed action in the
Original-Handler Table at the index of that signal in the monitored
set. -/
theorem init_spec (st : CrashState) (path : List Char) (openRes : Int) :
    (crash_handler_init st path openRes).crash_file_path =
      (safe_strcpy path PATH_BUFFER_SIZE).1 ∧
    (nullChar ∉ path →
      (crash_handler_init st path openRes).crash_file_path =
        path.take (PATH_BUFFER_SIZE - 1) ++ [nullChar]) ∧
    (crash_handler_init st path openRes).crash_fd = openRes ∧
    (∀ i, i < g_num_signals →
      (crash_handler_init st path openRes).old_handlers i =
        st.dispositions (g_signals.getD i 0)) ∧
    (∀ s ∈ g_signals,
      (crash_handler_init st path openRes).dispositions s =
        SigAction.crash) := by
  refine ⟨rfl, ?_, rfl, ?_, ?_⟩
  · intro h
    show (safe_strcpy path PATH_BUFFER_SIZE).1 = _
    unfold safe_strcpy
    rw [strcpyLoop_no_null path 0 PATH_BUFFER_SIZE h]
    simp
  · intro i hi
    have hi6 : i < 6 := hi
    interval_cases i <;> rfl
  · intro s hs
    fin_cases hs <;> rfl

/-- C8 witness. -/
theorem init_spec_witness :
    (crash_handler_init testState ['a'] 5).dispositions SIGSEGV =
      SigAction.crash :=
  (init_spec testState ['a'] 5).2.2.2.2 SIGSEGV (by decide)
